import Mathlib

/-!
# Verification of `eraclitux/goparallel` (`parallel.go` and its test file)

This development gives a shallow embedding of the worker-pool orchestration
implemented by `RunBlocking`, `populateQueue`, `parallelizeWorkers` and
`evaluateQueue` in `src/parallel.go`, together with the task types `dummy`
and `dummyNop` of the test file.

The Go program is concurrent, so it is embedded as a labelled small-step
transition system over an explicit system state:

* the producer goroutine (`populateQueue`) with its position in the job
  slice, the `select` on `signalChan`, the blocking send on the unbuffered
  `prematureEnd` channel and the `close(jobsQueue)` calls;
* the `jobsQueue` channel (capacity `workersNumber`) as a FIFO list of task
  indices plus a close counter;
* the `workersNumber` worker goroutines (`evaluateQueue`), each draining the
  queue and posting exactly one value on `doneChan` (capacity
  `workersNumber`) when the queue is closed and drained;
* the coordinator loop of `RunBlocking` with its `totalDone` counter, the
  `err` variable and the `totalDone == workersNumber` exit test.

Scheduling nondeterminism (which goroutine runs, when SIGINT arrives) is the
choice of the label sequence.  `Execute()` bodies are embedded by their
observable effect on the task record; the prime-checking loops in the test
tasks are pure computation with no observable effect and are elided.
-/

namespace GoParallel

/-- The `dummy` task record of the test file: `Execute` (pointer receiver)
sets the `done` field.  The heap of a run is a list of `dummy` records. -/
structure dummy where
  done : Bool
deriving DecidableEq

/-- Pointer-receiver `Execute` of `dummy`: after a pure prime-checking loop
(no observable effect) it sets `d.done = true` on the pointed-to record. -/
def dummy.Execute (d : dummy) : dummy :=
  { d with done := true }

/-- The `dummyNop` task record of the test file, identical to `dummy` but
with a value receiver for `Execute`. -/
structure dummyNop where
  done : Bool
deriving DecidableEq

/-- Value-receiver `Execute` of `dummyNop`: the receiver is a copy, the
write `d.done = true` lands on that copy. -/
def dummyNop.Execute (d : dummyNop) : dummyNop :=
  { d with done := true }

/-- A `Tasker` interface value as the tests build them: either a pointer
binding `Tasker(&dummy{})` (an address into the heap of `dummy` records) or
a value binding `Tasker(dummyNop{})` (the record itself, copied). -/
inductive Tasker where
  | ref (a : Nat)
  | val (d : dummyNop)
deriving DecidableEq

/-- Calling `j.Execute()` on a `Tasker` interface value.  A pointer binding
mutates the pointed-to heap record; a value binding runs `Execute` on a
copy of the record, so the heap is unchanged (the mutated copy is
discarded when the call returns). -/
def execTasker (t : Tasker) (h : List dummy) : List dummy :=
  match t with
  | Tasker.ref a => h.set a (dummy.Execute (h.getD a { done := false }))
  | Tasker.val _ => h

/-- Worker count: `var workersNumber int = runtime.NumCPU()`, derived once
from the host logical-processor count. -/
def workersNumber (numCPU : Nat) : Nat := numCPU

/-- Capacity of `jobsQueue := make(chan Tasker, workersNumber)`. -/
def jobsQueueCapacity (W : Nat) : Nat := W

/-- Capacity of `doneChan := make(chan struct{}, workersNumber)`. -/
def doneChanCapacity (W : Nat) : Nat := W

/-- The sentinel `ErrTasksNotCompleted` of `parallel.go`. -/
def ErrTasksNotCompleted : String :=
  "SIGINT received, not all tasks have been completed"

/-- Control state of the producer goroutine `populateQueue`:
`looping` = at the top of the `for ... range jobs` loop (about to run the
`select`); `committed` = the `select` found no pending signal and entered
the `default` case, committing to `jobsQueue <- t`; `sendingPE` = the
signal case was taken and the producer is blocked on the unbuffered send
`prematureEnd <- struct{}{}`; `closingCancel` = that send was received and
the producer is about to `close(jobsQueue)`; `finished` = returned. -/
inductive PMode where
  | looping
  | committed
  | sendingPE
  | closingCancel
  | finished
deriving DecidableEq

/-- Control state of one worker goroutine `evaluateQueue`: `running` = in
the `for j := range jobsQueue` loop; `finished` = it has sent its value on
`doneChan` and returned. -/
inductive WMode where
  | running
  | finished
deriving DecidableEq

/-- The complete state of one `RunBlocking` run. -/
structure SysState where
  /-- control state of `populateQueue` -/
  pmode : PMode
  /-- index of the next job the producer's loop considers -/
  idx : Nat
  /-- a SIGINT value is buffered in `signalChan` -/
  sigPending : Bool
  /-- `some k` records that the producer took the signal branch with `idx = k` -/
  cancelIdx : Option Nat
  /-- contents of `jobsQueue` (indices into the job slice), FIFO -/
  buffer : List Nat
  /-- how many times `close(jobsQueue)` has executed -/
  closedCount : Nat
  /-- indices whose `Execute()` has run, in dequeue order -/
  execLog : List Nat
  /-- the heap of `dummy` records pointer-bound tasks point into -/
  heap : List dummy
  /-- control state of each worker goroutine -/
  workers : List WMode
  /-- number of values currently buffered in `doneChan` -/
  doneBuf : Nat
  /-- total number of sends ever performed on `doneChan` -/
  doneSent : Nat
  /-- the coordinator's `totalDone` counter -/
  totalDone : Nat
  /-- the coordinator's `err` variable holds `ErrTasksNotCompleted` -/
  errFlag : Bool
  /-- the coordinator's loop has hit `totalDone == workersNumber` and broken -/
  returned : Bool
deriving DecidableEq

/-- Scheduling labels: which atomic event of the run happens next. -/
inductive Label where
  /-- delivery of SIGINT into `signalChan` -/
  | sigArrive
  /-- producer `select` finds no pending signal, enters the `default` case -/
  | prodPoll
  /-- producer `select` receives the pending signal -/
  | prodObserveSig
  /-- producer completes `jobsQueue <- t` -/
  | prodSend
  /-- producer exits its loop normally and runs `close(jobsQueue)` -/
  | prodCloseNormal
  /-- coordinator receives from `prematureEnd`, completing the producer's send -/
  | coordRecvPE
  /-- producer (cancellation branch) runs `close(jobsQueue)` -/
  | prodCloseCancel
  /-- worker `w` receives a task from `jobsQueue` and runs `Execute()` -/
  | workerExec (w : Nat)
  /-- worker `w` exits its range loop (queue closed and drained) and sends on `doneChan` -/
  | workerDone (w : Nat)
  /-- coordinator receives from `doneChan` and increments `totalDone` -/
  | coordRecvDone
deriving DecidableEq

/-- State of a run at the moment `RunBlocking` has created its channels and
started `populateQueue` and the `workersNumber` workers. -/
def initState (W : Nat) (h0 : List dummy) : SysState :=
  { pmode := PMode.looping
    idx := 0
    sigPending := false
    cancelIdx := none
    buffer := []
    closedCount := 0
    execLog := []
    heap := h0
    workers := List.replicate W WMode.running
    doneBuf := 0
    doneSent := 0
    totalDone := 0
    errFlag := false
    returned := false }

/-- Effect on the heap of dequeuing index `i` and calling `Execute()` on
the corresponding job. -/
def heapStep (jobs : List Tasker) (h : List dummy) (i : Nat) : List dummy :=
  execTasker (jobs.getD i (Tasker.val { done := false })) h

/-- One atomic step of the system.  `none` means the chosen event is not
enabled in `st` (the corresponding goroutine is blocked, or the guard of
the event is false). -/
def step (jobs : List Tasker) (W : Nat) (st : SysState) : Label → Option SysState
  | Label.sigArrive =>
      -- `signal.Notify(signalChan, os.Interrupt)` with a capacity-1 channel:
      -- a second delivery while one is pending is dropped.
      if st.sigPending = true then none
      else some { st with sigPending := true }
  | Label.prodPoll =>
      -- top of `for _, t := range jobs`: the `select` polls `signalChan`;
      -- nothing pending, so the `default` case is entered.
      if st.pmode = PMode.looping ∧ st.idx < jobs.length ∧ st.sigPending = false then
        some { st with pmode := PMode.committed }
      else none
  | Label.prodObserveSig =>
      -- the `select` receives from `signalChan`: abort queue evaluation.
      if st.pmode = PMode.looping ∧ st.idx < jobs.length ∧ st.sigPending = true then
        some { st with pmode := PMode.sendingPE
                       sigPending := false
                       cancelIdx := some st.idx }
      else none
  | Label.prodSend =>
      -- `jobsQueue <- t` completes (there is room in the buffered channel).
      if st.pmode = PMode.committed ∧ st.buffer.length < jobsQueueCapacity W then
        some { st with pmode := PMode.looping
                       buffer := st.buffer ++ [st.idx]
                       idx := st.idx + 1 }
      else none
  | Label.prodCloseNormal =>
      -- the range loop is exhausted: `close(jobsQueue)` and return.
      if st.pmode = PMode.looping ∧ st.idx = jobs.length then
        some { st with pmode := PMode.finished
                       closedCount := st.closedCount + 1 }
      else none
  | Label.coordRecvPE =>
      -- rendezvous on the unbuffered `prematureEnd`: the coordinator's
      -- `case <-prematureEnd` fires, `err = ErrTasksNotCompleted`, then the
      -- loop re-checks `totalDone == workersNumber`.
      if st.pmode = PMode.sendingPE ∧ st.returned = false then
        some { st with pmode := PMode.closingCancel
                       errFlag := true
                       returned := decide (st.totalDone = W) }
      else none
  | Label.prodCloseCancel =>
      -- cancellation branch: after `prematureEnd <- struct{}{}` completes,
      -- `close(jobsQueue)` and return, discarding the unsent jobs.
      if st.pmode = PMode.closingCancel then
        some { st with pmode := PMode.finished
                       closedCount := st.closedCount + 1 }
      else none
  | Label.workerExec w =>
      -- `for j := range jobsQueue { j.Execute() }`: worker `w` receives the
      -- front of the queue and executes it before asking for the next one.
      if st.workers.getD w WMode.finished = WMode.running ∧ st.buffer ≠ [] then
        some { st with buffer := st.buffer.tail
                       execLog := st.execLog ++ [st.buffer.headD 0]
                       heap := heapStep jobs st.heap (st.buffer.headD 0) }
      else none
  | Label.workerDone w =>
      -- the range loop of worker `w` ends (queue closed and drained):
      -- `doneChan <- struct{}{}` (blocking while `doneChan` is full).
      if st.workers.getD w WMode.finished = WMode.running ∧ st.buffer = [] ∧
          0 < st.closedCount ∧ st.doneBuf < doneChanCapacity W then
        some { st with workers := st.workers.set w WMode.finished
                       doneBuf := st.doneBuf + 1
                       doneSent := st.doneSent + 1 }
      else none
  | Label.coordRecvDone =>
      -- coordinator `case <-doneChan: totalDone++`, then the loop checks
      -- `totalDone == workersNumber` and breaks when it holds.
      if st.returned = false ∧ 0 < st.doneBuf then
        some { st with doneBuf := st.doneBuf - 1
                       totalDone := st.totalDone + 1
                       returned := decide (st.totalDone + 1 = W) }
      else none

/-- Run a schedule (list of labels) from a state; `none` if some label in
the schedule is not enabled when its turn comes. -/
def run (jobs : List Tasker) (W : Nat) (st : SysState) : List Label → Option SysState
  | [] => some st
  | l :: ls =>
      match step jobs W st l with
      | some st' => run jobs W st' ls
      | none => none

/-- The value `RunBlocking` returns, read off a (returned) state: the `err`
variable is either untouched (`nil`) or holds the sentinel. -/
def RunBlockingResult (st : SysState) : Option String :=
  if st.errFlag = true then some ErrTasksNotCompleted else none

/-- Global invariant of a `RunBlocking` run, established at `initState` and
preserved by every step.  Read `W` as `workersNumber`. -/
structure Inv (jobs : List Tasker) (W : Nat) (h0 : List dummy) (st : SysState) : Prop where
  /-- the number of worker goroutines never changes -/
  workersLen : st.workers.length = W
  /-- everything sent so far (executed prefix plus queue residue) is exactly
  the jobs `0 .. idx-1`, in input order -/
  logBuf : st.execLog ++ st.buffer = List.range st.idx
  /-- the producer never walks past the end of the job slice -/
  idxLe : st.idx ≤ jobs.length
  /-- a committed send has a job to send -/
  committedLt : st.pmode = PMode.committed → st.idx < jobs.length
  /-- `close(jobsQueue)` has run exactly once, iff the producer returned -/
  closedEq : st.closedCount = if st.pmode = PMode.finished then 1 else 0
  /-- sends on `doneChan` are in bijection with finished workers -/
  doneSentEq : st.doneSent = st.workers.count WMode.finished
  /-- conservation on `doneChan`: buffered plus received equals sent -/
  doneBufEq : st.doneBuf + st.totalDone = st.doneSent
  /-- the coordinator only breaks out at `totalDone == workersNumber` -/
  returnedDone : st.returned = true → st.totalDone = W
  /-- once `totalDone == workersNumber`, the coordinator has broken out -/
  fullDone : 0 < W → st.totalDone = W → st.returned = true
  /-- before the signal branch runs: no cancellation machinery is active -/
  noCancel : st.cancelIdx = none →
    st.pmode ≠ PMode.sendingPE ∧ st.pmode ≠ PMode.closingCancel ∧ st.errFlag = false
  /-- after the signal branch runs at index `k`: the producer's position is
  frozen at `k`, `k` was a real job, and the loop is abandoned -/
  cancelSome : ∀ k, st.cancelIdx = some k →
    st.idx = k ∧ k < jobs.length ∧ st.pmode ≠ PMode.looping ∧ st.pmode ≠ PMode.committed
  /-- the producer only closes on the cancel path after `err` was recorded -/
  closingErr : st.pmode = PMode.closingCancel → st.errFlag = true
  /-- a producer that returned out of the signal branch left `err` recorded -/
  finishedCancelErr : st.pmode = PMode.finished → st.cancelIdx ≠ none → st.errFlag = true
  /-- a producer that returned normally sent the whole job slice -/
  finishedIdx : st.pmode = PMode.finished → st.cancelIdx = none → st.idx = jobs.length
  /-- workers can only finish once the queue is closed, i.e. the producer returned -/
  doneSentFin : 0 < st.doneSent → st.pmode = PMode.finished
  /-- when every worker has reported, the queue has been drained -/
  allDoneBuf : st.doneSent = W → st.buffer = []
  /-- the heap is the initial heap acted on by the executed jobs, in order -/
  heapFold : st.heap = st.execLog.foldl (heapStep jobs) h0

/-!
Concrete scenarios used to witness the theorems below.

Scenario A: one worker, two pointer-bound tasks, no interrupt.
Scenario B: one worker, two pointer-bound tasks, SIGINT observed after one send.
Scenario C: two workers, one task; worker `0` processes zero tasks.
Scenario D: one worker, two value-bound tasks, no interrupt.
Scenario E: two workers, no tasks; the two completion orders.
-/

/-- Scenario A jobs: `[]Tasker{&dummy{}, &dummy{}}`. -/
def jobsA : List Tasker := [Tasker.ref 0, Tasker.ref 1]

/-- Scenario A initial heap: two fresh `dummy` records. -/
def heapA : List dummy := [{ done := false }, { done := false }]

/-- Scenario A schedule: no SIGINT, both tasks executed, clean return. -/
def traceA : List Label :=
  [Label.prodPoll, Label.prodSend, Label.prodPoll, Label.workerExec 0,
   Label.prodSend, Label.prodCloseNormal, Label.workerExec 0,
   Label.workerDone 0, Label.coordRecvDone]

/-- Scenario A final state. -/
def finalA : SysState :=
  (run jobsA 1 (initState 1 heapA) traceA).getD (initState 1 heapA)

/-- Scenario B jobs. -/
def jobsB : List Tasker := [Tasker.ref 0, Tasker.ref 1]

/-- Scenario B initial heap. -/
def heapB : List dummy := [{ done := false }, { done := false }]

/-- Scenario B schedule: SIGINT is delivered after the first send and
observed at the next poll; only job `0` runs. -/
def traceB : List Label :=
  [Label.prodPoll, Label.prodSend, Label.sigArrive, Label.prodObserveSig,
   Label.workerExec 0, Label.coordRecvPE, Label.prodCloseCancel,
   Label.workerDone 0, Label.coordRecvDone]

/-- Scenario B final state. -/
def finalB : SysState :=
  (run jobsB 1 (initState 1 heapB) traceB).getD (initState 1 heapB)

/-- Scenario C jobs: a single pointer-bound task for two workers. -/
def jobsC : List Tasker := [Tasker.ref 0]

/-- Scenario C initial heap. -/
def heapC : List dummy := [{ done := false }]

/-- Scenario C schedule: worker `1` takes the only task, worker `0`
processes zero tasks and still posts exactly one completion signal. -/
def traceC : List Label :=
  [Label.prodPoll, Label.prodSend, Label.prodCloseNormal, Label.workerExec 1,
   Label.workerDone 0, Label.workerDone 1, Label.coordRecvDone, Label.coordRecvDone]

/-- Scenario C final state. -/
def finalC : SysState :=
  (run jobsC 2 (initState 2 heapC) traceC).getD (initState 2 heapC)

/-- Scenario C stopped after worker `0` reported: worker `1` is still
running, the queue is closed and drained. -/
def finalC2 : SysState :=
  (run jobsC 2 (initState 2 heapC) (traceC.take 5)).getD (initState 2 heapC)

/-- Scenario C stopped after both workers reported but before the
coordinator drained `doneChan`. -/
def finalC3 : SysState :=
  (run jobsC 2 (initState 2 heapC) (traceC.take 6)).getD (initState 2 heapC)

/-- Scenario D jobs: `[]Tasker{dummyNop{}, dummyNop{}}` (value binding). -/
def jobsD : List Tasker := [Tasker.val { done := false }, Tasker.val { done := false }]

/-- Scenario D initial heap. -/
def heapD : List dummy := [{ done := false }]

/-- Scenario D schedule. -/
def traceD : List Label :=
  [Label.prodPoll, Label.prodSend, Label.prodPoll, Label.workerExec 0,
   Label.prodSend, Label.prodCloseNormal, Label.workerExec 0,
   Label.workerDone 0, Label.coordRecvDone]

/-- Scenario D final state. -/
def finalD : SysState :=
  (run jobsD 1 (initState 1 heapD) traceD).getD (initState 1 heapD)

/-- Scenario E, first completion order: worker `1` reports first. -/
def finalE1 : SysState :=
  (run [] 2 (initState 2 []) [Label.prodCloseNormal, Label.workerDone 1]).getD
    (initState 2 [])

/-- Scenario E, second completion order: worker `0` reports first. -/
def finalE2 : SysState :=
  (run [] 2 (initState 2 []) [Label.prodCloseNormal, Label.workerDone 0]).getD
    (initState 2 [])

/-- Scenario A after a single producer poll. -/
def finalP : SysState :=
  (step jobsA 1 (initState 1 heapA) Label.prodPoll).getD (initState 1 heapA)

/-!
## Theorems

`step_inv` inverts one step into the ten possible events with their guards
and effects; `inv_init` and `inv_step` establish the global invariant.
-/

variable {jobs : List Tasker} {W : Nat} {h0 : List dummy}

/-- Inversion of one enabled step: which event fired, its guard, and the
successor state it produced. -/
theorem step_inv {st st' : SysState} {l : Label}
    (h : step jobs W st l = some st') :
    (l = Label.sigArrive ∧ st.sigPending = false ∧
      st' = { st with sigPending := true }) ∨
    (l = Label.prodPoll ∧ st.pmode = PMode.looping ∧ st.idx < jobs.length ∧
      st.sigPending = false ∧ st' = { st with pmode := PMode.committed }) ∨
    (l = Label.prodObserveSig ∧ st.pmode = PMode.looping ∧ st.idx < jobs.length ∧
      st.sigPending = true ∧
      st' = { st with pmode := PMode.sendingPE, sigPending := false,
                      cancelIdx := some st.idx }) ∨
    (l = Label.prodSend ∧ st.pmode = PMode.committed ∧
      st.buffer.length < jobsQueueCapacity W ∧
      st' = { st with pmode := PMode.looping, buffer := st.buffer ++ [st.idx],
                      idx := st.idx + 1 }) ∨
    (l = Label.prodCloseNormal ∧ st.pmode = PMode.looping ∧ st.idx = jobs.length ∧
      st' = { st with pmode := PMode.finished, closedCount := st.closedCount + 1 }) ∨
    (l = Label.coordRecvPE ∧ st.pmode = PMode.sendingPE ∧ st.returned = false ∧
      st' = { st with pmode := PMode.closingCancel, errFlag := true,
                      returned := decide (st.totalDone = W) }) ∨
    (l = Label.prodCloseCancel ∧ st.pmode = PMode.closingCancel ∧
      st' = { st with pmode := PMode.finished, closedCount := st.closedCount + 1 }) ∨
    (∃ w, l = Label.workerExec w ∧
      st.workers.getD w WMode.finished = WMode.running ∧ st.buffer ≠ [] ∧
      st' = { st with buffer := st.buffer.tail,
                      execLog := st.execLog ++ [st.buffer.headD 0],
                      heap := heapStep jobs st.heap (st.buffer.headD 0) }) ∨
    (∃ w, l = Label.workerDone w ∧
      st.workers.getD w WMode.finished = WMode.running ∧ st.buffer = [] ∧
      0 < st.closedCount ∧ st.doneBuf < doneChanCapacity W ∧
      st' = { st with workers := st.workers.set w WMode.finished,
                      doneBuf := st.doneBuf + 1, doneSent := st.doneSent + 1 }) ∨
    (l = Label.coordRecvDone ∧ st.returned = false ∧ 0 < st.doneBuf ∧
      st' = { st with doneBuf := st.doneBuf - 1, totalDone := st.totalDone + 1,
                      returned := decide (st.totalDone + 1 = W) }) := by
  cases l with
  | sigArrive =>
    simp only [step] at h
    split at h
    · exact Option.noConfusion h
    · next hc =>
      injection h with h
      exact Or.inl ⟨rfl, by simpa using hc, h.symm⟩
  | prodPoll =>
    simp only [step] at h
    split at h
    · next hc =>
      injection h with h
      exact Or.inr (Or.inl ⟨rfl, hc.1, hc.2.1, hc.2.2, h.symm⟩)
    · exact Option.noConfusion h
  | prodObserveSig =>
    simp only [step] at h
    split at h
    · next hc =>
      injection h with h
      exact Or.inr (Or.inr (Or.inl ⟨rfl, hc.1, hc.2.1, hc.2.2, h.symm⟩))
    · exact Option.noConfusion h
  | prodSend =>
    simp only [step] at h
    split at h
    · next hc =>
      injection h with h
      exact Or.inr (Or.inr (Or.inr (Or.inl ⟨rfl, hc.1, hc.2, h.symm⟩)))
    · exact Option.noConfusion h
  | prodCloseNormal =>
    simp only [step] at h
    split at h
    · next hc =>
      injection h with h
      exact Or.inr (Or.inr (Or.inr (Or.inr (Or.inl ⟨rfl, hc.1, hc.2, h.symm⟩))))
    · exact Option.noConfusion h
  | coordRecvPE =>
    simp only [step] at h
    split at h
    · next hc =>
      injection h with h
      exact Or.inr (Or.inr (Or.inr (Or.inr (Or.inr (Or.inl ⟨rfl, hc.1, hc.2, h.symm⟩)))))
    · exact Option.noConfusion h
  | prodCloseCancel =>
    simp only [step] at h
    split at h
    · next hc =>
      injection h with h
      exact Or.inr (Or.inr (Or.inr (Or.inr (Or.inr (Or.inr (Or.inl ⟨rfl, hc, h.symm⟩))))))
    · exact Option.noConfusion h
  | workerExec w =>
    simp only [step] at h
    split at h
    · next hc =>
      injection h with h
      exact Or.inr (Or.inr (Or.inr (Or.inr (Or.inr (Or.inr (Or.inr (Or.inl
        ⟨w, rfl, hc.1, hc.2, h.symm⟩)))))))
    · exact Option.noConfusion h
  | workerDone w =>
    simp only [step] at h
    split at h
    · next hc =>
      injection h with h
      exact Or.inr (Or.inr (Or.inr (Or.inr (Or.inr (Or.inr (Or.inr (Or.inr (Or.inl
        ⟨w, rfl, hc.1, hc.2.1, hc.2.2.1, hc.2.2.2, h.symm⟩))))))))
    · exact Option.noConfusion h
  | coordRecvDone =>
    simp only [step] at h
    split at h
    · next hc =>
      injection h with h
      exact Or.inr (Or.inr (Or.inr (Or.inr (Or.inr (Or.inr (Or.inr (Or.inr (Or.inr
        ⟨rfl, hc.1, hc.2, h.symm⟩))))))))
    · exact Option.noConfusion h

/-- Setting a running worker to finished adds one to the finished count. -/
theorem count_set_finished :
    ∀ (l : List WMode) (w : Nat), l.getD w WMode.finished = WMode.running →
      (l.set w WMode.finished).count WMode.finished = l.count WMode.finished + 1 := by
  intro l
  induction l with
  | nil => intro w hw; simp at hw
  | cons m t ih =>
    intro w hw
    cases w with
    | zero =>
      simp only [List.getD_cons_zero] at hw
      subst hw
      simp [List.count_cons]
    | succ n =>
      simp only [List.getD_cons_succ] at hw
      simp [List.count_cons, ih n hw]
      omega

/-- A list of worker modes whose finished count is its length is all
finished. -/
theorem all_of_count_eq_length :
    ∀ (l : List WMode), l.count WMode.finished = l.length →
      ∀ m ∈ l, m = WMode.finished := by
  intro l
  induction l with
  | nil => intro _ m hm; cases hm
  | cons a t ih =>
    intro hc m hm
    cases a with
    | running =>
      exfalso
      have hle := List.count_le_length WMode.finished t
      simp [List.count_cons] at hc
      omega
    | finished =>
      simp [List.count_cons] at hc
      rcases List.mem_cons.mp hm with hm | hm
      · rw [hm]
      · exact ih hc m hm

/-- Freshly spawned workers are all running: no completion signal yet. -/
theorem count_replicate_running (n : Nat) :
    (List.replicate n WMode.running).count WMode.finished = 0 := by
  induction n with
  | zero => rfl
  | succ k ih => simp [List.replicate, List.count_cons, ih]

/-- Occurrence count in `List.range`: every index below `n` occurs exactly
once, nothing else occurs. -/
theorem count_range (n i : Nat) :
    (List.range n).count i = if i < n then 1 else 0 := by
  induction n with
  | zero => simp
  | succ k ih =>
    rw [List.range_succ, List.count_append, ih]
    by_cases hik : i = k
    · subst hik
      simp [List.count_cons]
    · simp [List.count_cons, hik]
      by_cases hlt : i < k
      · rw [if_pos hlt, if_pos (by omega)]
      · rw [if_neg hlt, if_neg (by omega)]

/-- Reading back the cell just written. -/
theorem getD_set_self :
    ∀ (l : List dummy) (a : Nat) (v : dummy), a < l.length →
      (l.set a v).getD a { done := false } = v := by
  intro l
  induction l with
  | nil => intro a v ha; cases ha
  | cons m t ih =>
    intro a v ha
    cases a with
    | zero => rfl
    | succ n =>
      simp only [List.set_cons_succ, List.getD_cons_succ]
      exact ih n v (by simpa using ha)

/-- Writing one cell leaves every other cell unchanged. -/
theorem getD_set_ne :
    ∀ (l : List dummy) (a b : Nat) (v : dummy), b ≠ a →
      (l.set a v).getD b { done := false } = l.getD b { done := false } := by
  intro l
  induction l with
  | nil => intro a b v _; rfl
  | cons m t ih =>
    intro a b v hne
    cases a with
    | zero =>
      cases b with
      | zero => exact absurd rfl hne
      | succ nb => rfl
    | succ na =>
      cases b with
      | zero => rfl
      | succ nb =>
        simp only [List.set_cons_succ, List.getD_cons_succ]
        exact ih na nb v (fun he => hne (by rw [he]))

/-- Reading past the end of the heap gives the default record. -/
theorem getD_of_len_le :
    ∀ (l : List dummy) (n : Nat), l.length ≤ n →
      l.getD n { done := false } = { done := false } := by
  intro l
  induction l with
  | nil => intro n _; rfl
  | cons m t ih =>
    intro n hn
    cases n with
    | zero => simp at hn
    | succ k => exact ih k (by simpa using hn)

/-- Executing a task never changes the heap size. -/
theorem execTasker_length (t : Tasker) (h : List dummy) :
    (execTasker t h).length = h.length := by
  cases t with
  | ref a => simp [execTasker]
  | val d => rfl

/-- Executing a task never resets a `done` flag. -/
theorem execTasker_done_mono (t : Tasker) (h : List dummy) (a : Nat)
    (hd : (h.getD a { done := false }).done = true) :
    ((execTasker t h).getD a { done := false }).done = true := by
  cases t with
  | ref b =>
    by_cases hba : b = a
    · subst hba
      by_cases hlt : b < h.length
      · rw [execTasker, getD_set_self h b _ hlt]
        rfl
      · rw [getD_of_len_le h b (by omega)] at hd
        exact absurd hd (by simp)
    · rw [execTasker, getD_set_ne h b a _ (fun he => hba he.symm)]
      exact hd
  | val d => exact hd

/-- Executing a pointer-bound task marks the pointed-to record done. -/
theorem execTasker_ref_done (a : Nat) (h : List dummy) (ha : a < h.length) :
    ((execTasker (Tasker.ref a) h).getD a { done := false }).done = true := by
  rw [execTasker, getD_set_self h a _ ha]
  rfl

/-- A fold of executed tasks never changes the heap size. -/
theorem foldl_heap_length (jobs : List Tasker) :
    ∀ (log : List Nat) (h : List dummy),
      (log.foldl (heapStep jobs) h).length = h.length := by
  intro log
  induction log with
  | nil => intro h; rfl
  | cons i t ih =>
    intro h
    rw [List.foldl_cons, ih, heapStep, execTasker_length]

/-- A fold of executed tasks never resets a `done` flag. -/
theorem foldl_done_mono (jobs : List Tasker) :
    ∀ (log : List Nat) (h : List dummy) (a : Nat),
      ((h.getD a { done := false }).done = true) →
      (((log.foldl (heapStep jobs) h).getD a { done := false }).done = true) := by
  intro log
  induction log with
  | nil => intro h a hd; exact hd
  | cons i t ih =>
    intro h a hd
    exact ih _ a (execTasker_done_mono _ h a hd)

/-- If some executed index is a pointer-bound task at heap address `a`,
the fold marks `a` done. -/
theorem foldl_ref_done (jobs : List Tasker) :
    ∀ (log : List Nat) (h : List dummy) (a k : Nat), k ∈ log →
      jobs.getD k (Tasker.val { done := false }) = Tasker.ref a → a < h.length →
      (((log.foldl (heapStep jobs) h).getD a { done := false }).done = true) := by
  intro log
  induction log with
  | nil => intro h a k hk; cases hk
  | cons i t ih =>
    intro h a k hk hj ha
    rcases List.mem_cons.mp hk with hk | hk
    · subst hk
      rw [List.foldl_cons]
      refine foldl_done_mono jobs t _ a ?_
      rw [heapStep, hj]
      exact execTasker_ref_done a h ha
    · rw [List.foldl_cons]
      refine ih _ a k hk hj ?_
      rw [heapStep, execTasker_length]
      exact ha

/-- A fold of value-bound tasks leaves the heap untouched. -/
theorem foldl_val_id (jobs : List Tasker) :
    ∀ (log : List Nat) (h : List dummy),
      (∀ k ∈ log, ∃ d, jobs.getD k (Tasker.val { done := false }) = Tasker.val d) →
      log.foldl (heapStep jobs) h = h := by
  intro log
  induction log with
  | nil => intro h _; rfl
  | cons i t ih =>
    intro h hall
    obtain ⟨d, hd⟩ := hall i (List.mem_cons_self i t)
    rw [List.foldl_cons, heapStep, hd, execTasker]
    exact ih h (fun k hk => hall k (List.mem_cons_of_mem i hk))

/-- The invariant holds when `RunBlocking` has just set up the run. -/
theorem inv_init : Inv jobs W h0 (initState W h0) where
  workersLen := by simp [initState]
  logBuf := by simp [initState]
  idxLe := Nat.zero_le _
  committedLt := by simp [initState]
  closedEq := by simp [initState]
  doneSentEq := by simp [initState, count_replicate_running]
  doneBufEq := by simp [initState]
  returnedDone := by simp [initState]
  fullDone := by intro h1 h2; simp [initState] at h2 ⊢; omega
  noCancel := by intro _; refine ⟨?_, ?_, ?_⟩ <;> simp [initState]
  cancelSome := by intro k hk; simp [initState] at hk
  closingErr := by simp [initState]
  finishedCancelErr := by simp [initState]
  finishedIdx := by simp [initState]
  doneSentFin := by simp [initState]
  allDoneBuf := fun _ => rfl
  heapFold := rfl

/-- Every enabled step preserves the invariant. -/
theorem inv_step {st st' : SysState} {l : Label}
    (hInv : Inv jobs W h0 st) (h : step jobs W st l = some st') :
    Inv jobs W h0 st' := by
  rcases step_inv h with
      ⟨hl, hs, rfl⟩ |
      ⟨hl, hp, hlt, hs, rfl⟩ |
      ⟨hl, hp, hlt, hs, rfl⟩ |
      ⟨hl, hp, hcap, rfl⟩ |
      ⟨hl, hp, hidx, rfl⟩ |
      ⟨hl, hp, hret, rfl⟩ |
      ⟨hl, hp, rfl⟩ |
      ⟨w, hl, hw, hb, rfl⟩ |
      ⟨w, hl, hw, hb, hcl, hdb, rfl⟩ |
      ⟨hl, hret, hdb, rfl⟩
  case inl =>
    -- SIGINT delivery: only `sigPending` changes.
    exact { hInv with }
  case inr.inl =>
    -- producer poll, default case entered.
    exact { hInv with
      committedLt := fun _ => hlt
      closedEq := by simp [hInv.closedEq, hp]
      noCancel := by
        intro hn
        have hn' : st.cancelIdx = none := hn
        exact ⟨by simp, by simp, (hInv.noCancel hn').2.2⟩
      cancelSome := by
        intro k hk
        have hk' : st.cancelIdx = some k := hk
        exact absurd hp (hInv.cancelSome k hk').2.2.1
      closingErr := by intro hx; simp at hx
      finishedCancelErr := by intro hx; simp at hx
      finishedIdx := by intro hx; simp at hx
      doneSentFin := by
        intro hd
        have hd' : 0 < st.doneSent := hd
        have hfin := hInv.doneSentFin hd'
        rw [hp] at hfin
        simp at hfin }
  case inr.inr.inl =>
    -- producer observes the signal.
    exact { hInv with
      committedLt := by intro hx; simp at hx
      closedEq := by simp [hInv.closedEq, hp]
      noCancel := by intro hn; simp at hn
      cancelSome := by
        intro k hk
        have hk' : some st.idx = some k := hk
        injection hk' with hk'
        refine ⟨hk', ?_, by simp, by simp⟩
        omega
      closingErr := by intro hx; simp at hx
      finishedCancelErr := by intro hx; simp at hx
      finishedIdx := by intro hx; simp at hx
      doneSentFin := by
        intro hd
        have hd' : 0 < st.doneSent := hd
        have hfin := hInv.doneSentFin hd'
        rw [hp] at hfin
        simp at hfin }
  case inr.inr.inr.inl =>
    -- producer completes a send.
    exact { hInv with
      logBuf := by
        show st.execLog ++ (st.buffer ++ [st.idx]) = List.range (st.idx + 1)
        rw [← List.append_assoc, hInv.logBuf, List.range_succ]
      idxLe := by
        have := hInv.committedLt hp
        show st.idx + 1 ≤ jobs.length
        omega
      committedLt := by intro hx; simp at hx
      closedEq := by simp [hInv.closedEq, hp]
      noCancel := by
        intro hn
        have hn' : st.cancelIdx = none := hn
        exact ⟨by simp, by simp, (hInv.noCancel hn').2.2⟩
      cancelSome := by
        intro k hk
        have hk' : st.cancelIdx = some k := hk
        exact absurd hp (hInv.cancelSome k hk').2.2.2
      closingErr := by intro hx; simp at hx
      finishedCancelErr := by intro hx; simp at hx
      finishedIdx := by intro hx; simp at hx
      doneSentFin := by
        intro hd
        have hd' : 0 < st.doneSent := hd
        have hfin := hInv.doneSentFin hd'
        rw [hp] at hfin
        simp at hfin
      allDoneBuf := by
        intro hds
        have hds' : st.doneSent = W := hds
        exfalso
        rcases Nat.eq_zero_or_pos W with hW0 | hWpos
        · rw [hW0] at hcap
          simp [jobsQueueCapacity] at hcap
        · have hfin := hInv.doneSentFin (by omega)
          rw [hp] at hfin
          simp at hfin }
  case inr.inr.inr.inr.inl =>
    -- producer exhausts the loop and closes the queue.
    exact { hInv with
      committedLt := by intro hx; simp at hx
      closedEq := by
        have h0c : st.closedCount = 0 := by simp [hInv.closedEq, hp]
        show st.closedCount + 1 = _
        simp [h0c]
      noCancel := by
        intro hn
        have hn' : st.cancelIdx = none := hn
        exact ⟨by simp, by simp, (hInv.noCancel hn').2.2⟩
      cancelSome := by
        intro k hk
        have hk' : st.cancelIdx = some k := hk
        exact absurd hp (hInv.cancelSome k hk').2.2.1
      closingErr := by intro hx; simp at hx
      finishedCancelErr := by
        intro _ hne
        have hne' : st.cancelIdx ≠ none := hne
        cases hck : st.cancelIdx with
        | none => exact absurd hck hne'
        | some k => exact absurd hp (hInv.cancelSome k hck).2.2.1
      finishedIdx := fun _ _ => hidx
      doneSentFin := fun _ => rfl }
  case inr.inr.inr.inr.inr.inl =>
    -- coordinator receives the cancellation signal, records the error.
    exact { hInv with
      committedLt := by intro hx; simp at hx
      closedEq := by simp [hInv.closedEq, hp]
      returnedDone := by
        intro hr
        have hr' : decide (st.totalDone = W) = true := hr
        exact of_decide_eq_true hr'
      fullDone := by
        intro _ h2
        have h2' : st.totalDone = W := h2
        show decide (st.totalDone = W) = true
        exact decide_eq_true h2'
      noCancel := by
        intro hn
        have hn' : st.cancelIdx = none := hn
        exact absurd hp (hInv.noCancel hn').1
      cancelSome := by
        intro k hk
        have hk' : st.cancelIdx = some k := hk
        exact ⟨(hInv.cancelSome k hk').1, (hInv.cancelSome k hk').2.1, by simp, by simp⟩
      closingErr := fun _ => rfl
      finishedCancelErr := by intro hx; simp at hx
      finishedIdx := by intro hx; simp at hx
      doneSentFin := by
        intro hd
        have hd' : 0 < st.doneSent := hd
        have hfin := hInv.doneSentFin hd'
        rw [hp] at hfin
        simp at hfin }
  case inr.inr.inr.inr.inr.inr.inl =>
    -- producer closes the queue on the cancellation path.
    exact { hInv with
      committedLt := by intro hx; simp at hx
      closedEq := by
        have h0c : st.closedCount = 0 := by simp [hInv.closedEq, hp]
        show st.closedCount + 1 = _
        simp [h0c]
      noCancel := by
        intro hn
        have hn' : st.cancelIdx = none := hn
        exact absurd hp (hInv.noCancel hn').2.1
      cancelSome := by
        intro k hk
        have hk' : st.cancelIdx = some k := hk
        exact ⟨(hInv.cancelSome k hk').1, (hInv.cancelSome k hk').2.1, by simp, by simp⟩
      closingErr := by intro hx; simp at hx
      finishedCancelErr := fun _ _ => hInv.closingErr hp
      finishedIdx := by
        intro _ hnone
        have hn' : st.cancelIdx = none := hnone
        exact absurd hp (hInv.noCancel hn').2.1
      doneSentFin := fun _ => rfl }
  case inr.inr.inr.inr.inr.inr.inr.inl =>
    -- a worker dequeues the queue front and executes it.
    obtain ⟨i, rest, hbuf⟩ := List.exists_cons_of_ne_nil hb
    exact { hInv with
      logBuf := by
        show (st.execLog ++ [st.buffer.headD 0]) ++ st.buffer.tail = List.range st.idx
        rw [hbuf]
        simp only [List.headD_cons, List.tail_cons, List.append_assoc,
          List.singleton_append]
        have hlog := hInv.logBuf
        rw [hbuf] at hlog
        exact hlog
      allDoneBuf := by
        intro hds
        have hds' : st.doneSent = W := hds
        have hempty := hInv.allDoneBuf hds'
        rw [hbuf] at hempty
        simp at hempty
      heapFold := by
        show heapStep jobs st.heap (st.buffer.headD 0) =
          (st.execLog ++ [st.buffer.headD 0]).foldl (heapStep jobs) h0
        rw [List.foldl_append, ← hInv.heapFold]
        rfl }
  case inr.inr.inr.inr.inr.inr.inr.inr.inl =>
    -- a worker exits its range loop and posts its completion signal.
    exact { hInv with
      workersLen := by
        show (st.workers.set w WMode.finished).length = W
        rw [List.length_set]
        exact hInv.workersLen
      doneSentEq := by
        show st.doneSent + 1 = (st.workers.set w WMode.finished).count WMode.finished
        rw [count_set_finished st.workers w hw, ← hInv.doneSentEq]
      doneBufEq := by
        show (st.doneBuf + 1) + st.totalDone = st.doneSent + 1
        have := hInv.doneBufEq
        omega
      doneSentFin := by
        intro _
        show st.pmode = PMode.finished
        have hcc := hcl
        rw [hInv.closedEq] at hcc
        by_cases hf : st.pmode = PMode.finished
        · exact hf
        · rw [if_neg hf] at hcc
          exact absurd hcc (by omega)
      allDoneBuf := fun _ => hb }
  case inr.inr.inr.inr.inr.inr.inr.inr.inr =>
    -- coordinator receives a completion signal.
    exact { hInv with
      doneBufEq := by
        show (st.doneBuf - 1) + (st.totalDone + 1) = st.doneSent
        have := hInv.doneBufEq
        omega
      returnedDone := by
        intro hr
        have hr' : decide (st.totalDone + 1 = W) = true := hr
        exact of_decide_eq_true hr'
      fullDone := by
        intro _ h2
        have h2' : st.totalDone + 1 = W := h2
        show decide (st.totalDone + 1 = W) = true
        exact decide_eq_true h2' }

/-- The invariant is preserved along any schedule. -/
theorem inv_run :
    ∀ (ls : List Label) (st st' : SysState), Inv jobs W h0 st →
      run jobs W st ls = some st' → Inv jobs W h0 st' := by
  intro ls
  induction ls with
  | nil =>
    intro st st' hInv hr
    simp only [run] at hr
    injection hr with hr
    exact hr ▸ hInv
  | cons l ls ih =>
    intro st st' hInv hr
    simp only [run] at hr
    cases hstep : step jobs W st l with
    | none => rw [hstep] at hr; exact Option.noConfusion hr
    | some st1 =>
      rw [hstep] at hr
      exact ih st1 st' (inv_step hInv hstep) hr

/-- The invariant holds in every state reachable from the initial state. -/
theorem inv_reach {ls : List Label} {st : SysState}
    (hr : run jobs W (initState W h0) ls = some st) : Inv jobs W h0 st :=
  inv_run ls (initState W h0) st inv_init hr

/-- Any step other than SIGINT delivery keeps `signalChan` empty and the
cancellation record unchanged. -/
theorem step_no_sig {st st' : SysState} {l : Label}
    (h : step jobs W st l = some st') (hl : l ≠ Label.sigArrive)
    (hs : st.sigPending = false) :
    st'.sigPending = false ∧ st'.cancelIdx = st.cancelIdx := by
  rcases step_inv h with
      ⟨hl', _, rfl⟩ |
      ⟨hl', _, _, _, rfl⟩ |
      ⟨hl', _, _, hsig, rfl⟩ |
      ⟨hl', _, _, rfl⟩ |
      ⟨hl', _, _, rfl⟩ |
      ⟨hl', _, _, rfl⟩ |
      ⟨hl', _, rfl⟩ |
      ⟨w, hl', _, _, rfl⟩ |
      ⟨w, hl', _, _, _, _, rfl⟩ |
      ⟨hl', _, _, rfl⟩
  · exact absurd hl' hl
  · exact ⟨hs, rfl⟩
  · rw [hs] at hsig; exact Bool.noConfusion hsig
  · exact ⟨hs, rfl⟩
  · exact ⟨hs, rfl⟩
  · exact ⟨hs, rfl⟩
  · exact ⟨hs, rfl⟩
  · exact ⟨hs, rfl⟩
  · exact ⟨hs, rfl⟩
  · exact ⟨hs, rfl⟩

/-- Along a schedule containing no SIGINT delivery, `signalChan` stays
empty and the producer never takes the signal branch. -/
theorem run_no_sig :
    ∀ (ls : List Label) (st st' : SysState), run jobs W st ls = some st' →
      Label.sigArrive ∉ ls → st.sigPending = false →
      st'.sigPending = false ∧ st'.cancelIdx = st.cancelIdx := by
  intro ls
  induction ls with
  | nil =>
    intro st st' hr _ hs
    simp only [run] at hr
    injection hr with hr
    exact hr ▸ ⟨hs, rfl⟩
  | cons l ls ih =>
    intro st st' hr hmem hs
    simp only [run] at hr
    cases hstep : step jobs W st l with
    | none => rw [hstep] at hr; exact Option.noConfusion hr
    | some st1 =>
      rw [hstep] at hr
      have hl : l ≠ Label.sigArrive := fun he => hmem (he ▸ List.mem_cons_self l ls)
      obtain ⟨hs1, hc1⟩ := step_no_sig hstep hl hs
      have hmem' : Label.sigArrive ∉ ls := fun hm => hmem (List.mem_cons_of_mem l hm)
      obtain ⟨hs2, hc2⟩ := ih st1 st' hr hmem' hs1
      exact ⟨hs2, hc2.trans hc1⟩

/-- Facts available in any state in which the coordinator loop has broken
out: `totalDone` hit the worker count, every completion signal has been
sent and received, the queue is drained and closed, the producer has
returned, and the executed log is exactly the sent prefix. -/
theorem returned_facts {st : SysState} (hInv : Inv jobs W h0 st)
    (hret : st.returned = true) :
    st.totalDone = W ∧ st.doneBuf = 0 ∧ st.doneSent = W ∧ st.buffer = [] ∧
      st.execLog = List.range st.idx ∧ (∀ m ∈ st.workers, m = WMode.finished) ∧
      (0 < W → st.pmode = PMode.finished) := by
  have htd : st.totalDone = W := hInv.returnedDone hret
  have hcount : st.workers.count WMode.finished ≤ W := by
    have := List.count_le_length WMode.finished st.workers
    rw [hInv.workersLen] at this
    exact this
  have hsent : st.doneSent = W := by
    have h1 := hInv.doneBufEq
    have h2 := hInv.doneSentEq
    omega
  have hbuf0 : st.doneBuf = 0 := by
    have h1 := hInv.doneBufEq
    omega
  have hemp : st.buffer = [] := hInv.allDoneBuf hsent
  have hlog : st.execLog = List.range st.idx := by
    have h1 := hInv.logBuf
    rw [hemp, List.append_nil] at h1
    exact h1
  have hall : ∀ m ∈ st.workers, m = WMode.finished := by
    refine all_of_count_eq_length st.workers ?_
    rw [← hInv.doneSentEq, hsent, hInv.workersLen]
  have hfin : 0 < W → st.pmode = PMode.finished := by
    intro hW
    exact hInv.doneSentFin (by omega)
  exact ⟨htd, hbuf0, hsent, hemp, hlog, hall, hfin⟩

/-- In a returned state, a recorded cancellation index forces the error
flag: the producer can only have closed the queue through the cancel path. -/
theorem returned_cancel_err {st : SysState} (hInv : Inv jobs W h0 st)
    (hW : 0 < W) (hret : st.returned = true) {K : Nat}
    (hcancel : st.cancelIdx = some K) : st.errFlag = true := by
  obtain ⟨-, -, -, -, -, -, hfin⟩ := returned_facts hInv hret
  exact hInv.finishedCancelErr (hfin hW) (fun hn => by rw [hcancel] at hn; cases hn)

/-- Draining the remaining completion signals: from a state where every
worker has finished but the coordinator has not yet broken out, repeatedly
receiving on `doneChan` reaches the break. -/
theorem drain_aux :
    ∀ (g : Nat) (st : SysState), Inv jobs W h0 st →
      (∀ m ∈ st.workers, m = WMode.finished) → st.returned = false →
      st.totalDone + g = W → 0 < g →
      ∃ st', run jobs W st (List.replicate g Label.coordRecvDone) = some st' ∧
        st'.returned = true ∧ st'.totalDone = W := by
  intro g
  induction g with
  | zero => intro st _ _ _ _ hg; exact absurd hg (by omega)
  | succ n ih =>
    intro st hInv hall hret htd _
    have hcnt : st.workers.count WMode.finished = st.workers.length := by
      refine List.count_eq_length.mpr ?_
      intro b hb
      exact (hall b hb).symm
    have hsent : st.doneSent = W := by
      rw [hInv.doneSentEq, hcnt, hInv.workersLen]
    have hbufpos : 0 < st.doneBuf := by
      have := hInv.doneBufEq
      omega
    have hstep : step jobs W st Label.coordRecvDone =
        some { st with doneBuf := st.doneBuf - 1, totalDone := st.totalDone + 1,
                       returned := decide (st.totalDone + 1 = W) } := by
      simp only [step]
      rw [if_pos ⟨hret, hbufpos⟩]
    cases n with
    | zero =>
      refine ⟨{ st with doneBuf := st.doneBuf - 1, totalDone := st.totalDone + 1,
                        returned := decide (st.totalDone + 1 = W) }, ?_, ?_, ?_⟩
      · show run jobs W st (Label.coordRecvDone :: []) = _
        simp only [run]
        rw [hstep]
      · show decide (st.totalDone + 1 = W) = true
        exact decide_eq_true (by omega)
      · show st.totalDone + 1 = W
        omega
    | succ m =>
      have hInv1 := inv_step hInv hstep
      have hret1 : decide (st.totalDone + 1 = W) = false := by
        rw [decide_eq_false_iff_not]
        omega
      obtain ⟨st', hrun', hret', htd'⟩ :=
        ih { st with doneBuf := st.doneBuf - 1, totalDone := st.totalDone + 1,
                     returned := decide (st.totalDone + 1 = W) }
          hInv1 hall hret1 (by show st.totalDone + 1 + (m + 1) = W; omega) (by omega)
      refine ⟨st', ?_, hret', htd'⟩
      show run jobs W st (Label.coordRecvDone :: List.replicate (m + 1) Label.coordRecvDone) = some st'
      simp only [run]
      rw [hstep]
      exact hrun'

/-- Only the two `close(jobsQueue)` calls of `populateQueue` ever change the
close counter: no worker or coordinator event touches it. -/
theorem step_closed_by {st st' : SysState} {l : Label}
    (h : step jobs W st l = some st') (hne : st'.closedCount ≠ st.closedCount) :
    l = Label.prodCloseNormal ∨ l = Label.prodCloseCancel := by
  rcases step_inv h with
      ⟨hl, _, rfl⟩ | ⟨hl, _, _, _, rfl⟩ | ⟨hl, _, _, _, rfl⟩ | ⟨hl, _, _, rfl⟩ |
      ⟨hl, _, _, rfl⟩ | ⟨hl, _, _, rfl⟩ | ⟨hl, _, rfl⟩ | ⟨w, hl, _, _, rfl⟩ |
      ⟨w, hl, _, _, _, _, rfl⟩ | ⟨hl, _, _, rfl⟩
  · exact absurd rfl hne
  · exact absurd rfl hne
  · exact absurd rfl hne
  · exact absurd rfl hne
  · exact Or.inl hl
  · exact absurd rfl hne
  · exact Or.inr hl
  · exact absurd rfl hne
  · exact absurd rfl hne
  · exact absurd rfl hne

/-- Only a worker's single `doneChan <- struct{}{}` changes the send
counter of `doneChan`. -/
theorem step_doneSent_by {st st' : SysState} {l : Label}
    (h : step jobs W st l = some st') (hne : st'.doneSent ≠ st.doneSent) :
    ∃ w, l = Label.workerDone w := by
  rcases step_inv h with
      ⟨hl, _, rfl⟩ | ⟨hl, _, _, _, rfl⟩ | ⟨hl, _, _, _, rfl⟩ | ⟨hl, _, _, rfl⟩ |
      ⟨hl, _, _, rfl⟩ | ⟨hl, _, _, rfl⟩ | ⟨hl, _, rfl⟩ | ⟨w, hl, _, _, rfl⟩ |
      ⟨w, hl, _, _, _, _, rfl⟩ | ⟨hl, _, _, rfl⟩
  · exact absurd rfl hne
  · exact absurd rfl hne
  · exact absurd rfl hne
  · exact absurd rfl hne
  · exact absurd rfl hne
  · exact absurd rfl hne
  · exact absurd rfl hne
  · exact absurd rfl hne
  · exact ⟨w, hl⟩
  · exact absurd rfl hne

/-- A send can only be committed to by a poll of `signalChan` that found no
pending signal: the producer checks for cancellation before each send. -/
theorem step_committed_by {st st' : SysState} {l : Label}
    (h : step jobs W st l = some st') (hc : st'.pmode = PMode.committed) :
    st.pmode = PMode.committed ∨ (l = Label.prodPoll ∧ st.sigPending = false) := by
  rcases step_inv h with
      ⟨hl, hs, rfl⟩ | ⟨hl, _, _, hs, rfl⟩ | ⟨hl, _, _, _, rfl⟩ | ⟨hl, _, _, rfl⟩ |
      ⟨hl, _, _, rfl⟩ | ⟨hl, _, _, rfl⟩ | ⟨hl, _, rfl⟩ | ⟨w, hl, _, _, rfl⟩ |
      ⟨w, hl, _, _, _, _, rfl⟩ | ⟨hl, _, _, rfl⟩
  · exact Or.inl hc
  · exact Or.inr ⟨hl, hs⟩
  · simp at hc
  · simp at hc
  · simp at hc
  · simp at hc
  · simp at hc
  · exact Or.inl hc
  · exact Or.inl hc
  · exact Or.inl hc

/-- No event changes the number of worker goroutines. -/
theorem step_workers_len {st st' : SysState} {l : Label}
    (h : step jobs W st l = some st') :
    st'.workers.length = st.workers.length := by
  rcases step_inv h with
      ⟨hl, _, rfl⟩ | ⟨hl, _, _, _, rfl⟩ | ⟨hl, _, _, _, rfl⟩ | ⟨hl, _, _, rfl⟩ |
      ⟨hl, _, _, rfl⟩ | ⟨hl, _, _, rfl⟩ | ⟨hl, _, rfl⟩ | ⟨w, hl, _, _, rfl⟩ |
      ⟨w, hl, _, _, _, _, rfl⟩ | ⟨hl, _, _, rfl⟩
  · rfl
  · rfl
  · rfl
  · rfl
  · rfl
  · rfl
  · rfl
  · rfl
  · show (st.workers.set w WMode.finished).length = st.workers.length
    simp
  · rfl

/-- Guard and effect of a worker's completion event: it requires the queue
to be closed and drained, flips that worker to finished, and performs its
single send on `doneChan`. -/
theorem workerDone_guard {st st' : SysState} {w : Nat}
    (h : step jobs W st (Label.workerDone w) = some st') :
    st.workers.getD w WMode.finished = WMode.running ∧ st.buffer = [] ∧
      0 < st.closedCount ∧ st.doneBuf < doneChanCapacity W ∧
      st' = { st with workers := st.workers.set w WMode.finished,
                      doneBuf := st.doneBuf + 1, doneSent := st.doneSent + 1 } := by
  simp only [step] at h
  split at h
  · next hc =>
    injection h with h
    exact ⟨hc.1, hc.2.1, hc.2.2.1, hc.2.2.2, h.symm⟩
  · exact Option.noConfusion h

/-- Guard and effect of a completed producer send: it happens from the
committed state and appends exactly the next job, in input order. -/
theorem prodSend_guard {st st' : SysState}
    (h : step jobs W st Label.prodSend = some st') :
    st.pmode = PMode.committed ∧ st.buffer.length < jobsQueueCapacity W ∧
      st' = { st with pmode := PMode.looping, buffer := st.buffer ++ [st.idx],
                      idx := st.idx + 1 } := by
  simp only [step] at h
  split at h
  · next hc =>
    injection h with h
    exact ⟨hc.1, hc.2, h.symm⟩
  · exact Option.noConfusion h

/-- C1: for every non-empty task sequence, when no interrupt is delivered
during the run, `RunBlocking` has every task's `Execute()` invoked exactly
once (none skipped, none run twice), returns `nil`, and the mutations of
pointer-bound tasks are visible in the final heap. -/
theorem runBlocking_no_cancel_all_executed
    (jobs : List Tasker) (W : Nat) (h0 : List dummy) (st : SysState) (ls : List Label)
    (hW : 0 < W) (_hjobs : jobs ≠ [])
    (hrun : run jobs W (initState W h0) ls = some st)
    (hnc : Label.sigArrive ∉ ls)
    (hret : st.returned = true) :
    st.execLog = List.range jobs.length ∧
    (∀ i, st.execLog.count i = if i < jobs.length then 1 else 0) ∧
    RunBlockingResult st = none ∧
    (∀ a, a < h0.length →
      (∃ k, k < jobs.length ∧ jobs.getD k (Tasker.val { done := false }) = Tasker.ref a) →
      (st.heap.getD a { done := false }).done = true) := by
  have hInv := inv_reach hrun
  obtain ⟨hsig, hcan⟩ := run_no_sig ls (initState W h0) st hrun hnc rfl
  have hcan' : st.cancelIdx = none := hcan
  obtain ⟨htd, hb0, hsent, hemp, hlog, hall, hfin⟩ := returned_facts hInv hret
  have hpm := hfin hW
  have hidx : st.idx = jobs.length := hInv.finishedIdx hpm hcan'
  have hlog' : st.execLog = List.range jobs.length := by rw [hlog, hidx]
  have herr : st.errFlag = false := (hInv.noCancel hcan').2.2
  refine ⟨hlog', ?_, ?_, ?_⟩
  · intro i
    rw [hlog', count_range]
  · simp [RunBlockingResult, herr]
  · intro a ha hex
    obtain ⟨k, hk, hjk⟩ := hex
    rw [hInv.heapFold]
    refine foldl_ref_done jobs st.execLog h0 a k ?_ hjk ha
    rw [hlog']
    exact List.mem_range.mpr hk

/-- C1 witness: scenario A, one worker, two pointer-bound tasks, no
interrupt. -/
theorem runBlocking_no_cancel_all_executed_witness :
    (0 < 1 ∧ jobsA ≠ [] ∧ run jobsA 1 (initState 1 heapA) traceA = some finalA ∧
      Label.sigArrive ∉ traceA ∧ finalA.returned = true) ∧
    finalA.execLog = List.range jobsA.length ∧ RunBlockingResult finalA = none :=
  ⟨⟨by decide, by decide, by decide, by decide, by decide⟩,
   (runBlocking_no_cancel_all_executed jobsA 1 heapA finalA traceA
      (by decide) (by decide) (by decide) (by decide) (by decide)).1,
   (runBlocking_no_cancel_all_executed jobsA 1 heapA finalA traceA
      (by decide) (by decide) (by decide) (by decide) (by decide)).2.2.1⟩

/-- C2: if the producer observes the interrupt with exactly `K` of the `N`
jobs sent, the run returns the sentinel, the `K` already-queued jobs are
all executed, and none of the remaining `N - K` jobs is sent or executed. -/
theorem runBlocking_cancel_truncates
    (jobs : List Tasker) (W : Nat) (h0 : List dummy) (st : SysState)
    (ls : List Label) (K : Nat) (hW : 0 < W)
    (hrun : run jobs W (initState W h0) ls = some st)
    (hcancel : st.cancelIdx = some K)
    (hret : st.returned = true) :
    RunBlockingResult st = some ErrTasksNotCompleted ∧
    K < jobs.length ∧ st.idx = K ∧ st.execLog = List.range K ∧
    (∀ j, K ≤ j → j ∉ st.execLog) := by
  have hInv := inv_reach hrun
  have herr := returned_cancel_err hInv hW hret hcancel
  obtain ⟨hik, hklt, -, -⟩ := hInv.cancelSome K hcancel
  obtain ⟨-, -, -, -, hlog, -, -⟩ := returned_facts hInv hret
  have hlogK : st.execLog = List.range K := by rw [hlog, hik]
  refine ⟨by simp [RunBlockingResult, herr], hklt, hik, hlogK, ?_⟩
  intro j hj hmem
  rw [hlogK] at hmem
  have := List.mem_range.mp hmem
  omega

/-- C2 witness: scenario B, SIGINT observed after one of two sends. -/
theorem runBlocking_cancel_truncates_witness :
    (0 < 1 ∧ run jobsB 1 (initState 1 heapB) traceB = some finalB ∧
      finalB.cancelIdx = some 1 ∧ finalB.returned = true) ∧
    RunBlockingResult finalB = some ErrTasksNotCompleted ∧
    finalB.execLog = List.range 1 :=
  ⟨⟨by decide, by decide, by decide, by decide⟩,
   (runBlocking_cancel_truncates jobsB 1 heapB finalB traceB 1
      (by decide) (by decide) (by decide) (by decide)).1,
   (runBlocking_cancel_truncates jobsB 1 heapB finalB traceB 1
      (by decide) (by decide) (by decide) (by decide)).2.2.2.1⟩

/-- C3: whenever the coordinator loop of `RunBlocking` has broken out (on
any path, cancellation included), it has received a completion signal from
every one of the `workersNumber` workers, all of which have terminated. -/
theorem runBlocking_waits_for_all_workers
    (jobs : List Tasker) (W : Nat) (h0 : List dummy) (st : SysState) (ls : List Label)
    (hrun : run jobs W (initState W h0) ls = some st)
    (hret : st.returned = true) :
    st.totalDone = W ∧ st.doneSent = W ∧ (∀ m ∈ st.workers, m = WMode.finished) := by
  have hInv := inv_reach hrun
  obtain ⟨htd, -, hsent, -, -, hall, -⟩ := returned_facts hInv hret
  exact ⟨htd, hsent, hall⟩

/-- C3 witness: scenario B (cancellation path) still drains both signals. -/
theorem runBlocking_waits_for_all_workers_witness :
    (run jobsB 1 (initState 1 heapB) traceB = some finalB ∧ finalB.returned = true) ∧
    finalB.totalDone = 1 ∧ finalB.doneSent = 1 :=
  ⟨⟨by decide, by decide⟩,
   (runBlocking_waits_for_all_workers jobsB 1 heapB finalB traceB
      (by decide) (by decide)).1,
   (runBlocking_waits_for_all_workers jobsB 1 heapB finalB traceB
      (by decide) (by decide)).2.1⟩

/-- C4: `RunBlocking` has exactly two outcomes: `nil`, or the single
sentinel `ErrTasksNotCompleted`; and it returns `nil` iff the producer
never emitted the cancellation signal. -/
theorem runBlocking_result_dichotomy
    (jobs : List Tasker) (W : Nat) (h0 : List dummy) (st : SysState) (ls : List Label)
    (hW : 0 < W)
    (hrun : run jobs W (initState W h0) ls = some st)
    (hret : st.returned = true) :
    (RunBlockingResult st = none ∨ RunBlockingResult st = some ErrTasksNotCompleted) ∧
    (RunBlockingResult st = none ↔ st.cancelIdx = none) := by
  have hInv := inv_reach hrun
  constructor
  · cases herr : st.errFlag with
    | false => exact Or.inl (by simp [RunBlockingResult, herr])
    | true => exact Or.inr (by simp [RunBlockingResult, herr])
  · constructor
    · intro hres
      cases hcan : st.cancelIdx with
      | none => rfl
      | some K =>
        have herr := returned_cancel_err hInv hW hret hcan
        simp [RunBlockingResult, herr] at hres
    · intro hcan
      have herr : st.errFlag = false := (hInv.noCancel hcan).2.2
      simp [RunBlockingResult, herr]

/-- C4 witness: scenario A returns `nil` and indeed saw no cancellation. -/
theorem runBlocking_result_dichotomy_witness :
    (0 < 1 ∧ run jobsA 1 (initState 1 heapA) traceA = some finalA ∧
      finalA.returned = true) ∧
    (RunBlockingResult finalA = none ↔ finalA.cancelIdx = none) :=
  ⟨⟨by decide, by decide, by decide⟩,
   (runBlocking_result_dichotomy jobsA 1 heapA finalA traceA
      (by decide) (by decide) (by decide)).2⟩

/-- C5: the queue is closed exactly once per run, only by the two
`close(jobsQueue)` sites of the producer, and queue closure (plus drain) is
what lets a worker stop waiting for more tasks. -/
theorem queue_closed_once_by_producer
    (jobs : List Tasker) (W : Nat) (h0 : List dummy) :
    (∀ (st : SysState) (ls : List Label),
        run jobs W (initState W h0) ls = some st → st.closedCount ≤ 1) ∧
    (∀ (st : SysState) (ls : List Label),
        run jobs W (initState W h0) ls = some st → 0 < W → st.returned = true →
        st.closedCount = 1) ∧
    (∀ (st st' : SysState) (l : Label), step jobs W st l = some st' →
        st'.closedCount ≠ st.closedCount →
        l = Label.prodCloseNormal ∨ l = Label.prodCloseCancel) ∧
    (∀ (st st' : SysState) (w : Nat),
        step jobs W st (Label.workerDone w) = some st' →
        0 < st.closedCount ∧ st.buffer = []) := by
  refine ⟨?_, ?_, ?_, ?_⟩
  · intro st ls hrun
    have hInv := inv_reach hrun
    rw [hInv.closedEq]
    split <;> omega
  · intro st ls hrun hW hret
    have hInv := inv_reach hrun
    obtain ⟨-, -, -, -, -, -, hfin⟩ := returned_facts hInv hret
    simp [hInv.closedEq, hfin hW]
  · intro st st' l h hne
    exact step_closed_by h hne
  · intro st st' w h
    obtain ⟨-, hb, hcl, -, -⟩ := workerDone_guard h
    exact ⟨hcl, hb⟩

/-- C5 witness: scenario A closes the queue exactly once. -/
theorem queue_closed_once_by_producer_witness :
    (run jobsA 1 (initState 1 heapA) traceA = some finalA ∧ 0 < 1 ∧
      finalA.returned = true) ∧
    finalA.closedCount = 1 :=
  ⟨⟨by decide, by decide, by decide⟩,
   (queue_closed_once_by_producer jobsA 1 heapA).2.1 finalA traceA
      (by decide) (by decide) (by decide)⟩

/-- C6: completion signals are in bijection with finished workers — each
worker posts exactly one, after the queue is closed and it has drained what
it received, regardless of how many tasks it processed (zero included). -/
theorem worker_single_completion_signal
    (jobs : List Tasker) (W : Nat) (h0 : List dummy) :
    (∀ (st : SysState) (ls : List Label),
        run jobs W (initState W h0) ls = some st →
        st.doneSent = st.workers.count WMode.finished) ∧
    (∀ (st : SysState) (ls : List Label),
        run jobs W (initState W h0) ls = some st → st.returned = true →
        st.doneSent = W ∧ ∀ m ∈ st.workers, m = WMode.finished) ∧
    (∀ (st st' : SysState) (w : Nat),
        step jobs W st (Label.workerDone w) = some st' →
        st.workers.getD w WMode.finished = WMode.running ∧
        st'.workers = st.workers.set w WMode.finished ∧
        st'.doneSent = st.doneSent + 1 ∧ st.buffer = [] ∧ 0 < st.closedCount) ∧
    (∀ (st st' : SysState) (l : Label), step jobs W st l = some st' →
        st'.doneSent ≠ st.doneSent → ∃ w, l = Label.workerDone w) := by
  refine ⟨?_, ?_, ?_, ?_⟩
  · intro st ls hrun
    exact (inv_reach hrun).doneSentEq
  · intro st ls hrun hret
    obtain ⟨-, -, hsent, -, -, hall, -⟩ := returned_facts (inv_reach hrun) hret
    exact ⟨hsent, hall⟩
  · intro st st' w h
    obtain ⟨hw, hb, hcl, -, hst⟩ := workerDone_guard h
    refine ⟨hw, ?_, ?_, hb, hcl⟩
    · rw [hst]
    · rw [hst]
  · intro st st' l h hne
    exact step_doneSent_by h hne

/-- C6 witness: scenario C — worker 0 processes zero tasks yet the two
workers post exactly two completion signals between them. -/
theorem worker_single_completion_signal_witness :
    (run jobsC 2 (initState 2 heapC) traceC = some finalC ∧
      finalC.returned = true ∧ finalC.execLog = [0]) ∧
    finalC.doneSent = 2 :=
  ⟨⟨by decide, by decide, by decide⟩,
   ((worker_single_completion_signal jobsC 2 heapC).2.1 finalC traceC
      (by decide) (by decide)).1⟩

/-- C7: the producer offers tasks to the queue strictly in input order, one
per loop iteration, each send committed only by a poll of the signal
channel that found no pending cancellation; completion order across
workers is not constrained (both orders are reachable). -/
theorem producer_sends_in_order_after_poll
    (jobs : List Tasker) (W : Nat) (h0 : List dummy) :
    (∀ (st : SysState) (ls : List Label),
        run jobs W (initState W h0) ls = some st →
        st.execLog ++ st.buffer = List.range st.idx ∧ st.idx ≤ jobs.length) ∧
    (∀ (st st' : SysState), step jobs W st Label.prodSend = some st' →
        st.pmode = PMode.committed ∧ st'.buffer = st.buffer ++ [st.idx] ∧
        st'.idx = st.idx + 1) ∧
    (∀ (st st' : SysState) (l : Label), step jobs W st l = some st' →
        st'.pmode = PMode.committed →
        st.pmode = PMode.committed ∨ (l = Label.prodPoll ∧ st.sigPending = false)) ∧
    (∃ ls : List Label, run [] 2 (initState 2 []) ls = some finalE1 ∧
        finalE1.workers = [WMode.running, WMode.finished]) ∧
    (∃ ls : List Label, run [] 2 (initState 2 []) ls = some finalE2 ∧
        finalE2.workers = [WMode.finished, WMode.running]) := by
  refine ⟨?_, ?_, ?_, ?_, ?_⟩
  · intro st ls hrun
    exact ⟨(inv_reach hrun).logBuf, (inv_reach hrun).idxLe⟩
  · intro st st' h
    obtain ⟨hp, -, hst⟩ := prodSend_guard h
    refine ⟨hp, ?_, ?_⟩ <;> rw [hst]
  · intro st st' l h hc
    exact step_committed_by h hc
  · exact ⟨[Label.prodCloseNormal, Label.workerDone 1], by decide, by decide⟩
  · exact ⟨[Label.prodCloseNormal, Label.workerDone 0], by decide, by decide⟩

/-- C7 witness: the sent prefix of scenario A is in input order. -/
theorem producer_sends_in_order_after_poll_witness :
    (run jobsA 1 (initState 1 heapA) traceA = some finalA) ∧
    finalA.execLog ++ finalA.buffer = List.range finalA.idx :=
  ⟨by decide,
   ((producer_sends_in_order_after_poll jobsA 1 heapA).1 finalA traceA (by decide)).1⟩

/-- C8: the worker count is `runtime.NumCPU()`, read once; exactly that
many workers are spawned at pool start; the queue is created with capacity
equal to the worker count; and no event changes the worker count. -/
theorem worker_count_fixed_from_numCPU
    (numCPU : Nat) (jobs : List Tasker) (h0 : List dummy) :
    workersNumber numCPU = numCPU ∧
    (initState (workersNumber numCPU) h0).workers.length = workersNumber numCPU ∧
    jobsQueueCapacity (workersNumber numCPU) = workersNumber numCPU ∧
    doneChanCapacity (workersNumber numCPU) = workersNumber numCPU ∧
    (∀ (st st' : SysState) (l : Label),
        step jobs (workersNumber numCPU) st l = some st' →
        st'.workers.length = st.workers.length) := by
  refine ⟨rfl, by simp [initState], rfl, rfl, ?_⟩
  intro st st' l h
  exact step_workers_len h

/-- C8 witness: a concrete poll step leaves the worker count unchanged. -/
theorem worker_count_fixed_from_numCPU_witness :
    (step jobsA (workersNumber 1) (initState 1 heapA) Label.prodPoll = some finalP) ∧
    finalP.workers.length = (initState 1 heapA).workers.length :=
  ⟨by decide,
   (worker_count_fixed_from_numCPU 1 jobsA heapA).2.2.2.2 (initState 1 heapA) finalP
      Label.prodPoll (by decide)⟩

/-- C9: a value-bound task's `Execute()` mutates only a discarded copy, so
the caller observes nothing after the run (the heap is untouched by a run
of value-bound jobs), while a pointer-bound task's mutation is observable;
executing a task touches no record other than its own. -/
theorem value_binding_loses_mutation
    (jobs : List Tasker) (W : Nat) (h0 : List dummy) (st : SysState) (ls : List Label)
    (hrun : run jobs W (initState W h0) ls = some st)
    (hval : ∀ k, k < jobs.length →
      ∃ d, jobs.getD k (Tasker.val { done := false }) = Tasker.val d) :
    st.heap = h0 ∧
    (∀ d : dummyNop, (dummyNop.Execute d).done = true) ∧
    (∀ (d : dummyNop) (h : List dummy), execTasker (Tasker.val d) h = h) ∧
    (∀ (a : Nat) (h : List dummy), a < h.length →
        ((execTasker (Tasker.ref a) h).getD a { done := false }).done = true) ∧
    (∀ (t : Tasker) (h : List dummy) (b : Nat), (∀ a, t = Tasker.ref a → b ≠ a) →
        (execTasker t h).getD b { done := false } = h.getD b { done := false }) := by
  have hInv := inv_reach hrun
  refine ⟨?_, fun d => rfl, fun d h => rfl, ?_, ?_⟩
  · rw [hInv.heapFold]
    refine foldl_val_id jobs st.execLog h0 ?_
    intro k hk
    have hmem : k ∈ st.execLog ++ st.buffer := List.mem_append_left _ hk
    rw [hInv.logBuf] at hmem
    have hklt : k < st.idx := List.mem_range.mp hmem
    have hle := hInv.idxLe
    exact hval k (by omega)
  · exact fun a h ha => execTasker_ref_done a h ha
  · intro t h b hne
    cases t with
    | ref a => exact getD_set_ne h a b _ (hne a rfl)
    | val d => rfl

/-- C9 witness: scenario D runs two value-bound tasks to completion and the
heap is bit-for-bit the initial one. -/
theorem value_binding_loses_mutation_witness :
    (run jobsD 1 (initState 1 heapD) traceD = some finalD ∧
      (∀ k, k < jobsD.length →
        ∃ d, jobsD.getD k (Tasker.val { done := false }) = Tasker.val d) ∧
      finalD.returned = true ∧ finalD.execLog = [0, 1]) ∧
    finalD.heap = heapD :=
  ⟨⟨by decide,
    by
      intro k hk
      match k, hk with
      | 0, _ => exact ⟨{ done := false }, rfl⟩
      | 1, _ => exact ⟨{ done := false }, rfl⟩,
    by decide, by decide⟩,
   (value_binding_loses_mutation jobsD 1 heapD finalD traceD (by decide)
      (by
        intro k hk
        match k, hk with
        | 0, _ => exact ⟨{ done := false }, rfl⟩
        | 1, _ => exact ⟨{ done := false }, rfl⟩)).1⟩

/-- C10: `doneChan` has capacity `workersNumber`; at most `workersNumber`
sends ever happen on it, so a worker ready to post its completion signal is
never blocked; `totalDone` never exceeds the worker count, and once every
worker has finished the coordinator's `totalDone == workersNumber` exit
test is reached by draining the remaining buffered signals. -/
theorem done_channel_never_blocks
    (jobs : List Tasker) (W : Nat) (h0 : List dummy) (hW : 0 < W) :
    doneChanCapacity W = W ∧
    (∀ (st : SysState) (ls : List Label),
        run jobs W (initState W h0) ls = some st →
        st.doneSent ≤ W ∧ st.totalDone ≤ W) ∧
    (∀ (st : SysState) (ls : List Label) (w : Nat),
        run jobs W (initState W h0) ls = some st →
        st.workers.getD w WMode.finished = WMode.running → st.buffer = [] →
        0 < st.closedCount → (step jobs W st (Label.workerDone w)).isSome = true) ∧
    (∀ (st : SysState) (ls : List Label),
        run jobs W (initState W h0) ls = some st →
        (∀ m ∈ st.workers, m = WMode.finished) → st.returned = false →
        ∃ st', run jobs W st (List.replicate (W - st.totalDone) Label.coordRecvDone) =
            some st' ∧ st'.returned = true ∧ st'.totalDone = W) := by
  refine ⟨rfl, ?_, ?_, ?_⟩
  · intro st ls hrun
    have hInv := inv_reach hrun
    have h1 := hInv.doneSentEq
    have h2 := List.count_le_length WMode.finished st.workers
    have h3 := hInv.workersLen
    have h4 := hInv.doneBufEq
    constructor <;> omega
  · intro st ls w hrun hw hb hcl
    have hInv := inv_reach hrun
    have hset := count_set_finished st.workers w hw
    have hsetlen : (st.workers.set w WMode.finished).length = st.workers.length := by
      simp
    have hcntle := List.count_le_length WMode.finished (st.workers.set w WMode.finished)
    have hdb : st.doneBuf < doneChanCapacity W := by
      have h1 := hInv.doneSentEq
      have h2 := hInv.doneBufEq
      have h3 := hInv.workersLen
      show st.doneBuf < W
      omega
    simp only [step]
    rw [if_pos ⟨hw, hb, hcl, hdb⟩]
    rfl
  · intro st ls hrun hall hret
    have hInv := inv_reach hrun
    have hcnt : st.workers.count WMode.finished = st.workers.length :=
      List.count_eq_length.mpr (fun b hb => (hall b hb).symm)
    have hsent : st.doneSent = W := by
      rw [hInv.doneSentEq, hcnt, hInv.workersLen]
    have htdlt : st.totalDone < W := by
      rcases Nat.lt_or_ge st.totalDone W with hlt | hge
      · exact hlt
      · exfalso
        have heq : st.totalDone = W := by
          have := hInv.doneBufEq
          omega
        have := hInv.fullDone hW heq
        rw [hret] at this
        exact Bool.noConfusion this
    exact drain_aux (W - st.totalDone) st hInv hall hret (by omega) (by omega)

/-- C10 witness: in scenario C a worker ready to report is never blocked,
and once both workers have finished the exit test is reached. -/
theorem done_channel_never_blocks_witness :
    (0 < 2 ∧ run jobsC 2 (initState 2 heapC) (traceC.take 5) = some finalC2 ∧
      finalC2.workers.getD 1 WMode.finished = WMode.running ∧
      finalC2.buffer = [] ∧ 0 < finalC2.closedCount) ∧
    (step jobsC 2 finalC2 (Label.workerDone 1)).isSome = true :=
  ⟨⟨by decide, by decide, by decide, by decide, by decide⟩,
   (done_channel_never_blocks jobsC 2 heapC (by decide)).2.2.1 finalC2
      (traceC.take 5) 1 (by decide) (by decide) (by decide) (by decide)⟩

end GoParallel
